import Mathlib

/-!
Verification of the blob library (`src/lib.rs`): an immutable, sliceable
binary blob with optional content-type tagging and lazy decoding to text
with optional line-ending normalization.

Embedding conventions:
* Bytes are `Nat` values (each part of a blob is a `List Nat`); byte values
  are only ever copied, never subject to arithmetic, so no modular reduction
  is needed.
* Rust `String` values are represented by their UTF-8 byte sequence
  (`List Nat`); `str::match_indices` works on byte offsets, so the
  normalizer is modeled directly on bytes (CR = 13, LF = 10).
* A Rust panic (the unchecked `to - from` subtraction in `Blob::size`, the
  `todo!` in `Blob::stream`) is modeled as `Option.none`; a normal return
  of `v` is `some v`.
* `Rc<[Vec<u8>]>` shared ownership is value-irrelevant: the arena is just
  the list of parts.
* The crate is built for a non-Windows target (wasm/js-sys), so the
  `#[cfg(not(target_os = "windows"))]` branches of
  `normalize_line_endings` are the compiled code: scan for `"\r\n"` and
  replace each non-overlapping occurrence with `"\n"`.
-/

/-- `LineEndings` from `src/lib.rs`: `Native` converts newlines to the host
convention, `Transparent` copies newline bytes unchanged. -/
inductive LineEndings where
  | Native : LineEndings
  | Transparent : LineEndings
deriving DecidableEq, Repr

/-- `BlobOptions` from `src/lib.rs`: line-ending policy plus optional
content type (Rust `Option<Box<str>>`, represented as `Option String`). -/
structure BlobOptions where
  endings : LineEndings
  ty : Option String
deriving DecidableEq, Repr

/-- `BlobOptions::new`. -/
def BlobOptions.new (endings : LineEndings) (ty : Option String) : BlobOptions :=
  { endings := endings, ty := ty }

/-- `impl Default for BlobOptions`: `Self::new(LineEndings::Transparent, None)`. -/
def BlobOptions.default : BlobOptions :=
  BlobOptions.new LineEndings.Transparent none

/-- `Blob` from `src/lib.rs`: `data: Rc<[Vec<u8>]>` (the shared parts),
`opts: BlobOptions`, and `view: Option<(usize, usize)>`. -/
structure Blob where
  data : List (List Nat)
  opts : BlobOptions
  view : Option (Nat × Nat)
deriving DecidableEq, Repr

/-- `Blob::new(parts, opts)`: collects the parts into the arena, takes the
supplied options or the default, and uses no view (full range). -/
def Blob.new (parts : List (List Nat)) (opts : Option BlobOptions) : Blob :=
  { data := parts, opts := opts.getD BlobOptions.default, view := none }

/-- `Blob::size`: for a sliced blob, the unchecked `to - from` usize
subtraction (a panic — modeled as `none` — when `from > to`, per the
comment in the source); otherwise the sum of the part lengths. -/
def Blob.size (b : Blob) : Option Nat :=
  match b.view with
  | some (s, e) => if s ≤ e then some (e - s) else none
  | none => some (b.data.map List.length).sum

/-- `Blob::slice(start, end, ty)`: resolves a missing `end` via
`self.size()` (which can panic, hence `Option`), then returns a blob
sharing `data`, with options `BlobOptions::new(Transparent, ty)` and view
`Some((start, end))`. No range validation is performed. -/
def Blob.slice (b : Blob) (start : Nat) (stop? : Option Nat) (ty : Option String) :
    Option Blob :=
  (match stop? with
   | some stop => some stop
   | none => b.size).map fun stop =>
    { data := b.data
      opts := BlobOptions.new LineEndings.Transparent ty
      view := some (start, stop) }

/-- `Blob::ty`: the optional content-type string. -/
def Blob.ty (b : Blob) : Option String :=
  b.opts.ty

/-- Writes the values of a list into `buf` at consecutive indices starting
at `ptr` (the effect of the repeated `buffer[ptr] = *byte; ptr += 1;`
statements in `Blob::coalesce`). -/
def setSeq : List Nat → Nat → List Nat → List Nat
  | buf, _, [] => buf
  | buf, ptr, v :: vs => setSeq (buf.set ptr v) (ptr + 1) vs

/-- The inner `for byte in part.iter()` loop of `Blob::coalesce`. State is
`(buffer, abs, ptr)`; the `Bool` records whether the `return buffer;` early
exit fired. Each step increments `abs`, skips the byte while `from >= abs`,
exits when `abs > to`, and otherwise writes the byte at `ptr`. -/
def coalesceInner (frm til : Nat) : List Nat → Nat → Nat → List Nat →
    List Nat × Nat × Nat × Bool
  | [], abs, ptr, buf => (buf, abs, ptr, false)
  | byte :: rest, abs, ptr, buf =>
    if frm ≥ abs + 1 then
      coalesceInner frm til rest (abs + 1) ptr buf
    else if abs + 1 > til then
      (buf, abs + 1, ptr, true)
    else
      coalesceInner frm til rest (abs + 1) (ptr + 1) (buf.set ptr byte)

/-- The outer `for part in self.data.iter()` loop of `Blob::coalesce`:
skips a whole part when `from > edge` (advancing `abs` to `edge`),
otherwise runs the inner loop and stops if it took the early `return`. -/
def coalesceOuter (frm til : Nat) : List (List Nat) → Nat → Nat → List Nat → List Nat
  | [], _, _, buf => buf
  | part :: parts, abs, ptr, buf =>
    if frm > abs + part.length then
      coalesceOuter frm til parts (abs + part.length) ptr buf
    else
      match coalesceInner frm til part abs ptr buf with
      | (buf1, _, _, true) => buf1
      | (buf1, abs1, ptr1, false) => coalesceOuter frm til parts abs1 ptr1 buf1

/-- `Blob::coalesce`: computes `capacity = self.size()` (propagating its
panic), takes `(from, to) = self.view.unwrap_or((0, capacity))`, allocates
a zero-filled buffer of length `capacity`, and runs the copy loops. -/
def Blob.coalesce (b : Blob) : Option (List Nat) :=
  match b.size with
  | none => none
  | some capacity =>
    let window := b.view.getD (0, capacity)
    some (coalesceOuter window.1 window.2 b.data 0 0 (List.replicate capacity 0))

/-- Whether the byte string contains an occurrence of `"\r\n"` — the
condition under which `input.match_indices("\r\n").peekable().peek()` in
`normalize_line_endings` is `Some` (non-Windows build). -/
def hasCRLF : List Nat → Bool
  | [] => false
  | [_] => false
  | a :: b :: rest => (a == 13 && b == 10) || hasCRLF (b :: rest)

/-- The rewrite performed by `normalize_line_endings`'s main loop on a
non-Windows host: scanning left to right, every non-overlapping occurrence
of `"\r\n"` (the matches produced by `match_indices("\r\n")`) is replaced
by `"\n"`; the gaps between matches and the suffix after the last match
are copied verbatim. -/
def normalizeCore : List Nat → List Nat
  | [] => []
  | [c] => [c]
  | a :: b :: rest =>
    if a == 13 && b == 10 then 10 :: normalizeCore rest
    else a :: normalizeCore (b :: rest)

/-- `normalize_line_endings` (non-Windows build): returns `None` when the
input has no `"\r\n"` (the early-return no-op path), otherwise `Some` of
the rewritten string. -/
def normalize_line_endings (input : List Nat) : Option (List Nat) :=
  if hasCRLF input then some (normalizeCore input) else none

/-- The value produced by the `normalize_line_endings(&text).unwrap_or(text)`
expression in `Blob::text`: the normalized result, or the input itself when
the no-rewrite path is taken. -/
def normalizeText (input : List Nat) : List Nat :=
  (normalize_line_endings input).getD input

/-- The position of the first invalid byte reported by Rust's
`String::from_utf8` (`Utf8Error::valid_up_to`): `none` when the bytes are
valid UTF-8, otherwise `some` of the byte offset at which the first
ill-formed or truncated sequence starts. This models the external standard
library validator (the table-driven `run_utf8_validation`). -/
def utf8FirstError : List Nat → Nat → Option Nat
  | [], _ => none
  | b :: rest, i =>
    if b < 128 then utf8FirstError rest (i + 1)
    else if 194 ≤ b ∧ b ≤ 223 then
      match rest with
      | b1 :: rest1 =>
        if 128 ≤ b1 ∧ b1 ≤ 191 then utf8FirstError rest1 (i + 2) else some i
      | [] => some i
    else if b = 224 then
      match rest with
      | b1 :: b2 :: rest2 =>
        if (160 ≤ b1 ∧ b1 ≤ 191) ∧ (128 ≤ b2 ∧ b2 ≤ 191) then
          utf8FirstError rest2 (i + 3)
        else some i
      | _ => some i
    else if 225 ≤ b ∧ b ≤ 236 then
      match rest with
      | b1 :: b2 :: rest2 =>
        if (128 ≤ b1 ∧ b1 ≤ 191) ∧ (128 ≤ b2 ∧ b2 ≤ 191) then
          utf8FirstError rest2 (i + 3)
        else some i
      | _ => some i
    else if b = 237 then
      match rest with
      | b1 :: b2 :: rest2 =>
        if (128 ≤ b1 ∧ b1 ≤ 159) ∧ (128 ≤ b2 ∧ b2 ≤ 191) then
          utf8FirstError rest2 (i + 3)
        else some i
      | _ => some i
    else if 238 ≤ b ∧ b ≤ 239 then
      match rest with
      | b1 :: b2 :: rest2 =>
        if (128 ≤ b1 ∧ b1 ≤ 191) ∧ (128 ≤ b2 ∧ b2 ≤ 191) then
          utf8FirstError rest2 (i + 3)
        else some i
      | _ => some i
    else if b = 240 then
      match rest with
      | b1 :: b2 :: b3 :: rest3 =>
        if (144 ≤ b1 ∧ b1 ≤ 191) ∧ (128 ≤ b2 ∧ b2 ≤ 191) ∧ (128 ≤ b3 ∧ b3 ≤ 191) then
          utf8FirstError rest3 (i + 4)
        else some i
      | _ => some i
    else if 241 ≤ b ∧ b ≤ 243 then
      match rest with
      | b1 :: b2 :: b3 :: rest3 =>
        if (128 ≤ b1 ∧ b1 ≤ 191) ∧ (128 ≤ b2 ∧ b2 ≤ 191) ∧ (128 ≤ b3 ∧ b3 ≤ 191) then
          utf8FirstError rest3 (i + 4)
        else some i
      | _ => some i
    else if b = 244 then
      match rest with
      | b1 :: b2 :: b3 :: rest3 =>
        if (128 ≤ b1 ∧ b1 ≤ 143) ∧ (128 ≤ b2 ∧ b2 ≤ 191) ∧ (128 ≤ b3 ∧ b3 ≤ 191) then
          utf8FirstError rest3 (i + 4)
        else some i
      | _ => some i
    else some i

/-- `Blob::text`: coalesces the window (propagating the `size` panic),
validates the bytes with `String::from_utf8` (an `Except.error` carrying
the first invalid byte offset on failure), and on success applies
`normalize_line_endings(..).unwrap_or(..)` exactly when the line-ending
policy is `Native`. The resulting Rust `String` is represented by its
UTF-8 bytes. -/
def Blob.text (b : Blob) : Option (Except Nat (List Nat)) :=
  match b.coalesce with
  | none => none
  | some bytes =>
    match utf8FirstError bytes 0 with
    | some errPos => some (Except.error errPos)
    | none =>
      if b.opts.endings = LineEndings.Native then
        some (Except.ok (normalizeText bytes))
      else
        some (Except.ok bytes)

/-- `Blob::stream`: the body is `todo!(..)`, an unconditional panic
("not yet implemented"); modeled as `none`. The function returns no value
and carries no error channel. -/
def Blob.stream : Option Unit :=
  none

/-- Whether the byte string contains an occurrence of `"\r\r\n"`. -/
def hasCRCRLF : List Nat → Bool
  | a :: b :: c :: rest => (a == 13 && b == 13 && c == 10) || hasCRCRLF (b :: c :: rest)
  | _ => false

/-! ### Helper lemmas about the copy loops -/

theorem setSeq_append (l1 l2 : List Nat) : ∀ (buf : List Nat) (ptr : Nat),
    setSeq buf ptr (l1 ++ l2) = setSeq (setSeq buf ptr l1) (ptr + l1.length) l2 := by
  induction l1 with
  | nil => intro buf ptr; simp [setSeq]
  | cons v vs ih =>
    intro buf ptr
    rw [List.cons_append, setSeq, setSeq, ih]
    have : ptr + 1 + vs.length = ptr + (vs.length + 1) := by omega
    rw [this, List.length_cons]

theorem take_set_succ : ∀ (buf : List Nat) (ptr v : Nat), ptr < buf.length →
    (buf.set ptr v).take (ptr + 1) = buf.take ptr ++ [v]
  | [], _, _, h => by simp at h
  | b :: bs, 0, v, _ => by simp
  | b :: bs, ptr + 1, v, h => by
    simp only [List.set_cons_succ, List.take_succ_cons]
    rw [take_set_succ bs ptr v (by simpa using h)]
    simp

theorem drop_set_gt : ∀ (buf : List Nat) (ptr v k : Nat), ptr < k →
    (buf.set ptr v).drop k = buf.drop k
  | [], _, _, _, _ => by simp
  | b :: bs, 0, v, k, h => by
    cases k with
    | zero => omega
    | succ k => simp
  | b :: bs, ptr + 1, v, k, h => by
    cases k with
    | zero => omega
    | succ k =>
      simp only [List.set_cons_succ, List.drop_succ_cons]
      exact drop_set_gt bs ptr v k (by omega)

theorem setSeq_eq : ∀ (l buf : List Nat) (ptr : Nat), ptr + l.length ≤ buf.length →
    setSeq buf ptr l = buf.take ptr ++ l ++ buf.drop (ptr + l.length)
  | [], buf, ptr, _ => by simp [setSeq]
  | v :: vs, buf, ptr, h => by
    have hp : ptr < buf.length := by simp at h; omega
    rw [setSeq, setSeq_eq vs (buf.set ptr v) (ptr + 1) (by simp at h ⊢; omega)]
    rw [take_set_succ buf ptr v hp, drop_set_gt buf ptr v _ (by omega)]
    have : ptr + 1 + vs.length = ptr + (vs.length + 1) := by omega
    rw [this, List.length_cons]
    simp

theorem coalesceInner_copy (frm til : Nat) : ∀ (bytes : List Nat) (abs ptr : Nat)
    (buf : List Nat), frm ≤ abs → abs + bytes.length ≤ til →
    coalesceInner frm til bytes abs ptr buf =
      (setSeq buf ptr bytes, abs + bytes.length, ptr + bytes.length, false)
  | [], abs, ptr, buf, _, _ => by simp [coalesceInner, setSeq]
  | byte :: rest, abs, ptr, buf, h1, h2 => by
    rw [coalesceInner, if_neg (by omega), if_neg (by simp at h2; omega)]
    rw [coalesceInner_copy frm til rest (abs + 1) (ptr + 1) (buf.set ptr byte)
      (by omega) (by simp at h2 ⊢; omega)]
    rw [setSeq]
    simp only [List.length_cons, Prod.mk.injEq, true_and, and_true]
    omega

theorem coalesceInner_buf (frm til : Nat) : ∀ (bytes : List Nat) (abs ptr : Nat)
    (buf : List Nat),
    (coalesceInner frm til bytes abs ptr buf).1 =
      setSeq buf ptr ((bytes.drop (frm - abs)).take (til - max frm abs))
  | [], abs, ptr, buf => by simp [coalesceInner, setSeq]
  | byte :: rest, abs, ptr, buf => by
    rw [coalesceInner]
    by_cases h1 : frm ≥ abs + 1
    · rw [if_pos h1, coalesceInner_buf frm til rest (abs + 1) ptr buf]
      have e1 : frm - abs = (frm - (abs + 1)) + 1 := by omega
      have e2 : max frm (abs + 1) = frm := by omega
      have e3 : max frm abs = frm := by omega
      rw [e1, e2, e3, List.drop_succ_cons]
    · by_cases h2 : abs + 1 > til
      · rw [if_neg h1, if_pos h2]
        have e1 : til - max frm abs = 0 := by omega
        rw [e1]
        simp [setSeq]
      · rw [if_neg h1, if_neg h2,
          coalesceInner_buf frm til rest (abs + 1) (ptr + 1) (buf.set ptr byte)]
        have e1 : frm - (abs + 1) = 0 := by omega
        have e2 : max frm (abs + 1) = abs + 1 := by omega
        have e3 : frm - abs = 0 := by omega
        have e4 : max frm abs = abs := by omega
        have e5 : til - abs = (til - (abs + 1)) + 1 := by omega
        rw [e1, e2, e3, e4, e5, List.drop_zero, List.drop_zero, List.take_succ_cons, setSeq]

theorem coalesceOuter_copy (frm til : Nat) : ∀ (parts : List (List Nat)) (abs ptr : Nat)
    (buf : List Nat), frm ≤ abs → abs + (parts.map List.length).sum ≤ til →
    coalesceOuter frm til parts abs ptr buf = setSeq buf ptr parts.flatten
  | [], abs, ptr, buf, _, _ => by simp [coalesceOuter, setSeq]
  | part :: parts, abs, ptr, buf, h1, h2 => by
    rw [coalesceOuter, if_neg (by omega)]
    rw [coalesceInner_copy frm til part abs ptr buf h1 (by simp at h2; omega)]
    simp only []
    rw [coalesceOuter_copy frm til parts (abs + part.length) (ptr + part.length)
      (setSeq buf ptr part) (by omega) (by simp at h2 ⊢; omega)]
    rw [List.flatten_cons, setSeq_append]

/-! ### Characterizations of `Blob.coalesce` -/

theorem coalesce_view_none (b : Blob) (h : b.view = none) :
    b.coalesce = some b.data.flatten := by
  unfold Blob.coalesce Blob.size
  rw [h]
  simp only [Option.getD_none]
  rw [coalesceOuter_copy 0 ((b.data.map List.length).sum) b.data 0 0
    (List.replicate ((b.data.map List.length).sum) 0) (Nat.le_refl 0)
    (by rw [Nat.zero_add])]
  rw [setSeq_eq _ _ 0 (by simp [List.length_flatten])]
  simp [List.length_flatten]

theorem coalesceInner_no_early (frm til : Nat) : ∀ (bytes : List Nat) (abs ptr : Nat)
    (buf : List Nat), (coalesceInner frm til bytes abs ptr buf).2.2.2 = false →
    coalesceInner frm til bytes abs ptr buf =
      (setSeq buf ptr ((bytes.drop (frm - abs)).take (til - max frm abs)),
        abs + bytes.length,
        ptr + ((bytes.drop (frm - abs)).take (til - max frm abs)).length, false)
  | [], abs, ptr, buf, _ => by simp [coalesceInner, setSeq]
  | byte :: rest, abs, ptr, buf, h => by
    rw [coalesceInner] at h ⊢
    by_cases h1 : frm ≥ abs + 1
    · rw [if_pos h1] at h ⊢
      rw [coalesceInner_no_early frm til rest (abs + 1) ptr buf h]
      have e1 : frm - abs = (frm - (abs + 1)) + 1 := by omega
      have e2 : max frm (abs + 1) = frm := by omega
      have e3 : max frm abs = frm := by omega
      rw [e1, e2, e3, List.drop_succ_cons]
      simp only [List.length_cons, Prod.mk.injEq, true_and, and_true]
      omega
    · by_cases h2 : abs + 1 > til
      · rw [if_neg h1, if_pos h2] at h
        simp at h
      · rw [if_neg h1, if_neg h2] at h ⊢
        rw [coalesceInner_no_early frm til rest (abs + 1) (ptr + 1) (buf.set ptr byte) h]
        have e1 : frm - (abs + 1) = 0 := by omega
        have e2 : max frm (abs + 1) = abs + 1 := by omega
        have e3 : frm - abs = 0 := by omega
        have e4 : max frm abs = abs := by omega
        have e5 : til - abs = (til - (abs + 1)) + 1 := by omega
        rw [e1, e2, e3, e4, e5, List.drop_zero, List.drop_zero, List.take_succ_cons, setSeq]
        simp only [List.length_cons, List.length_take, Prod.mk.injEq, true_and, and_true]
        constructor <;> omega

theorem coalesceInner_early_til (frm til : Nat) : ∀ (bytes : List Nat) (abs ptr : Nat)
    (buf : List Nat), (coalesceInner frm til bytes abs ptr buf).2.2.2 = true →
    til < abs + bytes.length
  | [], abs, ptr, buf, h => by simp [coalesceInner] at h
  | byte :: rest, abs, ptr, buf, h => by
    rw [coalesceInner] at h
    by_cases h1 : frm ≥ abs + 1
    · rw [if_pos h1] at h
      have := coalesceInner_early_til frm til rest (abs + 1) ptr buf h
      simp only [List.length_cons]
      omega
    · by_cases h2 : abs + 1 > til
      · simp only [List.length_cons]
        omega
      · rw [if_neg h1, if_neg h2] at h
        have := coalesceInner_early_til frm til rest (abs + 1) (ptr + 1) (buf.set ptr byte) h
        simp only [List.length_cons]
        omega

theorem window_append (part fl : List Nat) (frm abs til : Nat)
    (hD : frm ≤ abs + part.length) :
    ((part ++ fl).drop (frm - abs)).take (til - max frm abs) =
      (part.drop (frm - abs)).take (til - max frm abs) ++
        fl.take (til - (abs + part.length)) := by
  rw [List.drop_append_of_le_length (by omega), List.take_append_eq_append_take]
  congr 2
  rw [List.length_drop]
  omega

theorem coalesceOuter_buf (frm til : Nat) : ∀ (parts : List (List Nat)) (abs ptr : Nat)
    (buf : List Nat),
    coalesceOuter frm til parts abs ptr buf =
      setSeq buf ptr ((parts.flatten.drop (frm - abs)).take (til - max frm abs))
  | [], abs, ptr, buf => by simp [coalesceOuter, setSeq]
  | part :: parts, abs, ptr, buf => by
    rw [coalesceOuter]
    by_cases hskip : frm > abs + part.length
    · rw [if_pos hskip, coalesceOuter_buf frm til parts (abs + part.length) ptr buf]
      have e1 : frm - abs = part.length + (frm - abs - part.length) := by omega
      have e2 : frm - abs - part.length = frm - (abs + part.length) := by omega
      have e3 : max frm (abs + part.length) = frm := by omega
      have e4 : max frm abs = frm := by omega
      rw [List.flatten_cons, e1, e2, List.drop_append, e3, e4]
    · rw [if_neg hskip]
      rcases hres : coalesceInner frm til part abs ptr buf with ⟨buf1, abs1, ptr1, flag⟩
      cases flag with
      | true =>
        show buf1 = _
        have hbuf := coalesceInner_buf frm til part abs ptr buf
        rw [hres] at hbuf
        have htil : til < abs + part.length :=
          coalesceInner_early_til frm til part abs ptr buf (by rw [hres])
        rw [List.flatten_cons, window_append part parts.flatten frm abs til (by omega)]
        have hz : til - (abs + part.length) = 0 := by omega
        rw [hz, List.take_zero, List.append_nil]
        exact hbuf
      | false =>
        show coalesceOuter frm til parts abs1 ptr1 buf1 = _
        have hfull := coalesceInner_no_early frm til part abs ptr buf (by rw [hres])
        rw [hres] at hfull
        simp only [Prod.mk.injEq, and_true] at hfull
        obtain ⟨hb, ha, hp⟩ := hfull
        rw [hb, ha, hp, coalesceOuter_buf frm til parts (abs + part.length) _ _]
        rw [List.flatten_cons, window_append part parts.flatten frm abs til (by omega)]
        rw [setSeq_append]
        have e1 : frm - (abs + part.length) = 0 := by omega
        have e2 : max frm (abs + part.length) = abs + part.length := by omega
        rw [e1, e2, List.drop_zero]

theorem coalesce_window (parts : List (List Nat)) (opts : BlobOptions) (s e : Nat)
    (hse : s ≤ e) :
    (Blob.mk parts opts (some (s, e))).coalesce =
      some ((parts.flatten.drop s).take (e - s) ++
        List.replicate ((e - s) - ((parts.flatten.drop s).take (e - s)).length) 0) := by
  have hw : ((parts.flatten.drop s).take (e - s)).length ≤ e - s := by
    rw [List.length_take]
    exact Nat.min_le_left _ _
  unfold Blob.coalesce Blob.size
  simp only [if_pos hse, Option.getD_some]
  rw [coalesceOuter_buf]
  simp only [Nat.sub_zero, Nat.max_zero]
  rw [setSeq_eq _ _ 0 (by simp [hw])]
  simp

/-! ### Helper lemmas about the line-ending normalizer -/

theorem hasCRLF_cons_of_ne (a : Nat) (l : List Nat) (ha : a ≠ 13) :
    hasCRLF (a :: l) = hasCRLF l := by
  cases l with
  | nil => rfl
  | cons b rest =>
    rw [hasCRLF]
    have : (a == 13) = false := by simp [ha]
    simp [this]

theorem hasCRCRLF_cons_of_ne (a : Nat) (l : List Nat) (ha : a ≠ 13) :
    hasCRCRLF (a :: l) = hasCRCRLF l := by
  match l with
  | [] => rfl
  | [x] => rfl
  | b :: c :: rest =>
    rw [hasCRCRLF]
    have : (a == 13) = false := by simp [ha]
    simp [this]

theorem normalizeCore_of_no_crlf : ∀ (l : List Nat), hasCRLF l = false →
    normalizeCore l = l
  | [], _ => rfl
  | [_], _ => rfl
  | a :: b :: rest, h => by
    rw [hasCRLF, Bool.or_eq_false_iff] at h
    rw [normalizeCore, if_neg (by simp [h.1])]
    rw [normalizeCore_of_no_crlf (b :: rest) h.2]

theorem no_crlf_normalizeCore : ∀ (l : List Nat), hasCRCRLF l = false →
    hasCRLF (normalizeCore l) = false
  | [], _ => rfl
  | [_], _ => rfl
  | a :: b :: rest, h => by
    by_cases hab : (a == 13 && b == 10) = true
    · have ha : a = 13 := by simp at hab; omega
      have hb : b = 10 := by simp at hab; omega
      rw [normalizeCore, if_pos hab, hasCRLF_cons_of_ne 10 _ (by omega)]
      have hrest : hasCRCRLF rest = false := by
        match rest with
        | [] => rfl
        | c :: rest1 =>
          subst ha hb
          rw [hasCRCRLF] at h
          simp only [Bool.or_eq_false_iff] at h
          rw [← hasCRCRLF_cons_of_ne 10 (c :: rest1) (by omega)]
          exact h.2
      exact no_crlf_normalizeCore rest hrest
    · have htail : hasCRCRLF (b :: rest) = false := by
        match rest with
        | [] => rfl
        | c :: rest1 =>
          rw [hasCRCRLF] at h
          simp only [Bool.or_eq_false_iff] at h
          exact h.2
      have ih := no_crlf_normalizeCore (b :: rest) htail
      rw [normalizeCore, if_neg hab]
      by_cases ha : a = 13
      · subst ha
        have hb : b ≠ 10 := by
          intro hb
          subst hb
          simp at hab
        match rest with
        | [] =>
          rw [normalizeCore, hasCRLF]
          simp only [Bool.or_eq_false_iff]
          exact ⟨by simp [hb], rfl⟩
        | c :: rest1 =>
          by_cases hbc : (b == 13 && c == 10) = true
          · exfalso
            have hb13 : b = 13 := by simp at hbc; omega
            have hc10 : c = 10 := by simp at hbc; omega
            subst hb13 hc10
            rw [hasCRCRLF] at h
            simp at h
          · rw [normalizeCore, if_neg hbc]
            rw [normalizeCore, if_neg hbc] at ih
            rw [hasCRLF]
            have hb10 : (b == 10) = false := by simp [hb]
            simp only [hb10, Bool.and_false, Bool.false_or]
            exact ih
      · rw [hasCRLF_cons_of_ne a _ ha]
        exact ih

theorem normalizeText_eq_core (l : List Nat) : normalizeText l = normalizeCore l := by
  unfold normalizeText normalize_line_endings
  by_cases h : hasCRLF l
  · rw [if_pos h, Option.getD_some]
  · rw [if_neg h, Option.getD_none,
      normalizeCore_of_no_crlf l (Bool.not_eq_true _ ▸ eq_false_of_ne_true h)]


theorem text_of_coalesce (b : Blob) (bytes : List Nat) (h : b.coalesce = some bytes) :
    b.text =
      match utf8FirstError bytes 0 with
      | some errPos => some (Except.error errPos)
      | none =>
        if b.opts.endings = LineEndings.Native then some (Except.ok (normalizeText bytes))
        else some (Except.ok bytes) := by
  unfold Blob.text
  rw [h]

/-! ### Claims -/

/-- Claim C1 (counterexample): the claim asserts that `Blob::slice(5, 5)`
on a non-empty blob fails with `OutOfRange`; in the code `slice` performs
no validation, and at the concrete non-empty blob built from the six bytes
of `"First!"` the call returns a `Blob` — whose `text()` even succeeds
with the empty string. -/
theorem slice_five_five_returns_blob :
    ((Blob.new [[70, 105, 114, 115, 116, 33]] none).slice 5 (some 5) none).isSome = true ∧
    ((Blob.new [[70, 105, 114, 115, 116, 33]] none).slice 5 (some 5) none).map Blob.text =
      some (some (Except.ok [])) :=
  ⟨rfl, rfl⟩

/-- Claim C1 (amended): `Blob::slice` performs no range validation and
never fails with `OutOfRange`: for every blob, start, end and content
type, `slice(start, Some(end), ty)` returns a blob over the same data
with window `(start, end)`; in particular `slice(5, Some(5), ty)` returns
a blob whose `size()` is `0` instead of failing. -/
theorem slice_no_out_of_range (b : Blob) (s e : Nat) (ty : Option String) :
    b.slice s (some e) ty =
      some (Blob.mk b.data (BlobOptions.new LineEndings.Transparent ty) (some (s, e))) ∧
    (b.slice 5 (some 5) ty).map Blob.size = some (some 0) :=
  ⟨rfl, rfl⟩

/-- Claim C2 (counterexample): the line-ending normalizer is not
idempotent: on the byte string `"\r\r\n"` one pass yields `"\r\n"`
(the copied gap `"\r"` followed by the substituted `"\n"`), and a second
pass yields `"\n"`. -/
theorem normalizeText_not_idempotent_at_cr_cr_lf :
    normalizeText (normalizeText [13, 13, 10]) ≠ normalizeText [13, 13, 10] := by
  decide

/-- Claim C2 (amended): the normalizer is idempotent on every text that
does not contain the byte substring `"\r\r\n"` — the only pattern whose
rewrite manufactures a fresh `"\r\n"`: for all such `t`,
`normalize(normalize(t)) = normalize(t)`, where `normalize(t)` is the
normalized result (the input itself when the no-rewrite path is taken). -/
theorem normalizeText_idempotent_of_no_crcrlf (t : List Nat)
    (h : hasCRCRLF t = false) :
    normalizeText (normalizeText t) = normalizeText t := by
  rw [normalizeText_eq_core, normalizeText_eq_core]
  exact normalizeCore_of_no_crlf _ (no_crlf_normalizeCore t h)

/-- Claim C2 (witness): the amended idempotence theorem applied to the
concrete text `"a\r\nb"`. -/
theorem normalizeText_idempotent_witness :
    hasCRCRLF [97, 13, 10, 98] = false ∧
    normalizeText (normalizeText [97, 13, 10, 98]) = normalizeText [97, 13, 10, 98] :=
  ⟨by decide, normalizeText_idempotent_of_no_crcrlf [97, 13, 10, 98] (by decide)⟩

/-- Claim C3: for every byte sequence `b` that is valid UTF-8 (the
standard-library validator reports no error), a blob constructed from `b`
with the default (`Transparent`) options decodes to text whose byte
representation is exactly `b`. -/
theorem text_roundtrip_valid_utf8 (b : List Nat) (h : utf8FirstError b 0 = none) :
    (Blob.new [b] none).text = some (Except.ok b) := by
  have hc : (Blob.new [b] none).coalesce = some b := by
    rw [coalesce_view_none (Blob.new [b] none) rfl]
    simp [Blob.new]
  rw [text_of_coalesce (Blob.new [b] none) b hc, h]
  rfl

/-- Claim C3 (witness): the round-trip theorem applied to the concrete
valid UTF-8 byte sequence `"hi"`. -/
theorem text_roundtrip_witness :
    utf8FirstError [104, 105] 0 = none ∧
    (Blob.new [[104, 105]] none).text = some (Except.ok [104, 105]) :=
  ⟨by decide, text_roundtrip_valid_utf8 [104, 105] (by decide)⟩

/-- Claim C4: for all byte segments `s1` and `s2`, the blob built from the
two segments `[s1, s2]` decodes (text or error, panic included) exactly as
the blob built from the single concatenated buffer `s1 ++ s2`. -/
theorem multi_segment_decode_eq (s1 s2 : List Nat) :
    (Blob.new [s1, s2] none).text = (Blob.new [s1 ++ s2] none).text := by
  have h1 : (Blob.new [s1, s2] none).coalesce = some (s1 ++ s2) := by
    rw [coalesce_view_none (Blob.new [s1, s2] none) rfl]
    simp [Blob.new]
  have h2 : (Blob.new [s1 ++ s2] none).coalesce = some (s1 ++ s2) := by
    rw [coalesce_view_none (Blob.new [s1 ++ s2] none) rfl]
    simp [Blob.new]
  rw [text_of_coalesce (Blob.new [s1, s2] none) (s1 ++ s2) h1,
    text_of_coalesce (Blob.new [s1 ++ s2] none) (s1 ++ s2) h2]
  cases utf8FirstError (s1 ++ s2) 0 <;> rfl

/-- Claim C5: offsets given to `slice` are absolute positions into the
original arena, not relative to the current window: re-slicing a derived
blob with explicit bounds yields exactly the blob obtained by slicing the
parent with those bounds. -/
theorem slice_offsets_absolute (b : Blob) (a1 e1 a2 e2 : Nat) (t1 t2 : Option String) :
    (b.slice a1 (some e1) t1).bind (fun b1 => b1.slice a2 (some e2) t2) =
      b.slice a2 (some e2) t2 :=
  rfl

/-- Claim C6: every blob returned by `slice(start, end, ty)` has options
exactly `{Transparent, ty}`: the line-ending policy is reset to
`Transparent` whatever the parent's policy, and the content type is the
one supplied to `slice` (absent when none is supplied), never inherited. -/
theorem slice_resets_options (b : Blob) (s : Nat) (e : Option Nat) (ty : Option String)
    (b1 : Blob) (h : b.slice s e ty = some b1) :
    b1.opts = BlobOptions.new LineEndings.Transparent ty := by
  unfold Blob.slice at h
  cases e with
  | some stop =>
    simp only [Option.map_some', Option.some.injEq] at h
    rw [← h]
  | none =>
    cases hs : b.size with
    | none => rw [hs] at h; simp at h
    | some v =>
      rw [hs] at h
      simp only [Option.map_some', Option.some.injEq] at h
      rw [← h]

/-- Claim C6 (witness): slicing a blob whose options are the default with
an explicit content type yields a blob whose options are exactly
`{Transparent, Some("text/plain")}`. -/
theorem slice_resets_options_witness :
    (Blob.mk [[1]] (BlobOptions.new LineEndings.Transparent (some "text/plain"))
        (some (0, 1))).opts =
      BlobOptions.new LineEndings.Transparent (some "text/plain") :=
  slice_resets_options (Blob.new [[1]] none) 0 (some 1) (some "text/plain") _ rfl

/-- Claim C7: decoding any window whose coalesced bytes are not valid
UTF-8 fails with the encoding error carrying the offset of the first
invalid byte reported by the validator. -/
theorem text_invalid_utf8_first_error (b : Blob) (bytes : List Nat) (p : Nat)
    (hco : b.coalesce = some bytes) (herr : utf8FirstError bytes 0 = some p) :
    b.text = some (Except.error p) := by
  rw [text_of_coalesce b bytes hco, herr]

/-- Claim C7 (witness): decoding the byte sequence `[0xFF, 0xFE]` fails
with the encoding error at offset `0`. -/
theorem text_invalid_utf8_witness :
    (Blob.new [[255, 254]] none).coalesce = some [255, 254] ∧
    utf8FirstError [255, 254] 0 = some 0 ∧
    (Blob.new [[255, 254]] none).text = some (Except.error 0) :=
  ⟨rfl, by decide,
    text_invalid_utf8_first_error (Blob.new [[255, 254]] none) [255, 254] 0 rfl (by decide)⟩

/-- Claim C8 (counterexample): the claim asserts `stream()` fails with a
recoverable `NotImplemented` result; the body is `todo!(..)`, an
unconditional panic (modeled as `none`), so no invocation produces a
returned value of any kind. -/
theorem stream_returns_no_result : ¬ ∃ u : Unit, Blob.stream = some u := by
  rintro ⟨u, h⟩
  exact Option.noConfusion h

/-- Claim C8 (amended): every invocation of `stream()` fails by panicking
via `todo!` ("not yet implemented"), modeled as `none`; the signature has
no error channel, so the not-implemented signal is the panic itself, not a
recoverable result. -/
theorem stream_always_panics : Blob.stream = none :=
  rfl

/-- Claim C9: slicing past the end of the data raises no error: for every
blob, slicing with `s ≤ total ≤ e` (where `total` is the total byte length
of the underlying data, all parts concatenated) yields a blob that reports
`size() = e - s` and coalesces to the available data from `s` on, followed
by a zero byte at every position past the end of the data. -/
theorem slice_beyond_end_zero_pads (b : Blob) (s e : Nat) (ty : Option String) (b1 : Blob)
    (hs : s ≤ b.data.flatten.length) (he : b.data.flatten.length ≤ e)
    (h : b.slice s (some e) ty = some b1) :
    b1.size = some (e - s) ∧
    b1.coalesce =
      some (b.data.flatten.drop s ++ List.replicate (e - b.data.flatten.length) 0) := by
  have hb1 : b1 = Blob.mk b.data (BlobOptions.new LineEndings.Transparent ty)
      (some (s, e)) := by
    unfold Blob.slice at h
    simp only [Option.map_some', Option.some.injEq] at h
    exact h.symm
  subst hb1
  constructor
  · simp only [Blob.size]
    rw [if_pos (by omega)]
  · rw [coalesce_window b.data _ s e (by omega)]
    have h1 : (b.data.flatten.drop s).take (e - s) = b.data.flatten.drop s :=
      List.take_of_length_le (by rw [List.length_drop]; omega)
    rw [h1, List.length_drop]
    have h2 : (e - s) - (b.data.flatten.length - s) = e - b.data.flatten.length := by omega
    rw [h2]

/-- Claim C9 (witness): slicing the two-part blob `[[1, 2], [3, 4, 5]]`
(total length 5, exercising the outer loop's part-skip branch) with window
`(3, 7)` reports size `4` and coalesces to `[4, 5, 0, 0]`. -/
theorem slice_beyond_end_witness :
    3 ≤ ([[1, 2], [3, 4, 5]] : List (List Nat)).flatten.length ∧
    ([[1, 2], [3, 4, 5]] : List (List Nat)).flatten.length ≤ 7 ∧
    ((Blob.mk [[1, 2], [3, 4, 5]] (BlobOptions.new LineEndings.Transparent none)
        (some (3, 7))).size = some 4 ∧
      (Blob.mk [[1, 2], [3, 4, 5]] (BlobOptions.new LineEndings.Transparent none)
        (some (3, 7))).coalesce = some [4, 5, 0, 0]) :=
  ⟨by decide, by decide,
    slice_beyond_end_zero_pads (Blob.new [[1, 2], [3, 4, 5]] none) 3 7 none
      (Blob.mk [[1, 2], [3, 4, 5]] (BlobOptions.new LineEndings.Transparent none)
        (some (3, 7)))
      (by decide) (by decide) rfl⟩

/-- Claim C10: `slice` never validates `start ≤ end`, and on a blob it
produces, `size()` performs the unguarded `to - from` subtraction: it
panics (modeled as `none`) exactly when the range is inverted, i.e. it is
total precisely under the precondition `from ≤ to`. -/
theorem size_panics_iff_inverted (b : Blob) (s e : Nat) (ty : Option String)
    (b1 : Blob) (h : b.slice s (some e) ty = some b1) :
    b1.size = none ↔ e < s := by
  have hb1 : b1 = Blob.mk b.data (BlobOptions.new LineEndings.Transparent ty)
      (some (s, e)) := by
    unfold Blob.slice at h
    simp only [Option.map_some', Option.some.injEq] at h
    exact h.symm
  subst hb1
  simp only [Blob.size]
  split <;> simp <;> omega

/-- Claim C10 (witness): slicing `[1, 2, 3]` with the inverted window
`(3, 1)` yields a blob whose `size()` panics. -/
theorem size_panics_witness :
    (Blob.mk [[1, 2, 3]] (BlobOptions.new LineEndings.Transparent none)
        (some (3, 1))).size = none ↔ 1 < 3 :=
  size_panics_iff_inverted (Blob.new [[1, 2, 3]] none) 3 1 none _ rfl
